import Mathlib

/-!
Verification of the bandit decision engine of the ROFARS repository
(`agents.py`): the UCB1, Sliding-Window UCB and Discounted UCB agents.

Modelling conventions:
* numpy float arrays hold exact rationals here (`ℚ`); the spec's
  floating-point tolerance becomes exact equality over `ℚ`.
* The parallel per-arm numpy arrays (`counts`, `values`, ...) are bundled
  into one record per arm; a list of such records replaces the arrays.
* `for i, reward in enumerate(state)` over the per-arm arrays is `zipUpd`:
  position `i` is rewritten from `state[i]`, positions beyond the length of
  `state` are untouched.
* `np.random.choice` receives the ambient random state as an explicit
  argument `pick : ℕ` used to index into the candidate list.
* Score vectors that involve `np.log` / `np.sqrt` live in `ℝ`.
-/

namespace ROFARS

/-- `arr.min()` of a numpy array, defined for nonempty arrays; on `[]`
numpy would raise, here the fold returns the default `headI`. -/
def npMin (l : List ℚ) : ℚ := l.foldr min l.headI

/-- `np.where(counts == 0)[0]`: the indices whose count is zero. -/
def zeroIdxs (counts : List ℚ) : List ℕ :=
  (List.range counts.length).filter (fun i => counts.getD i 1 = 0)

/-- `np.random.choice(l)` with the random draw supplied as `pick`. -/
def randomChoice (l : List ℕ) (pick : ℕ) : ℕ := l.getD (pick % l.length) 0

/-- `action = np.zeros(n); action[idx] = 1`. -/
def oneHot (n : ℕ) (idx : ℕ) : List ℝ :=
  (List.range n).map (fun j => if j = idx then 1 else 0)

/-- A vector with exactly one entry equal to `1` and all others `0`. -/
def IsOneHot (l : List ℝ) : Prop :=
  ∃ j, j < l.length ∧ l.getD j 0 = 1 ∧ ∀ k, k < l.length → k ≠ j → l.getD k 0 = 0

/-- Elementwise rewrite of the per-arm records from the reward vector
`state`; arms beyond `state.length` are left as they are (the Python loop
ranges over `state`). -/
def zipUpd (f : α → ℚ → α) (arms : List α) (state : List ℚ) : List α :=
  List.zipWith f arms state ++ arms.drop state.length

/-! ## UCB1 agent (`class UCBAgent`) -/

/-- Per-arm slice of the arrays `self.counts` / `self.values`. -/
structure UCBArm where
  count : ℚ
  value : ℚ
deriving Repr, DecidableEq

/-- State of `UCBAgent`; `self.c = 3` is a literal constant in the source
and is inlined below. -/
structure UCBAgent where
  total_time_steps : ℕ
  arms : List UCBArm
deriving Repr, DecidableEq

namespace UCBAgent

/-- `__init__`: `counts`/`values` start as `None` (no arms),
`total_time_steps = 0`. -/
def new : UCBAgent := ⟨0, []⟩

/-- `initialize(n_actions)`: fresh zero arrays; note that
`total_time_steps` is NOT touched by the source. -/
def init (s : UCBAgent) (n : ℕ) : UCBAgent :=
  ⟨s.total_time_steps, List.replicate n ⟨0, 0⟩⟩

/-- Loop body of `UCBAgent.update` for one arm. -/
def armUpdate (a : UCBArm) (reward : ℚ) : UCBArm :=
  if 0 ≤ reward then
    ⟨a.count + 1, a.value + 1 / (a.count + 1) * (reward - a.value)⟩
  else
    ⟨a.count + 0, a.value⟩

/-- `UCBAgent.update(actions, state)`. -/
def update (s : UCBAgent) (actions : List ℚ) (state : List ℚ) : UCBAgent :=
  ⟨s.total_time_steps + 1, zipUpd armUpdate s.arms state⟩

/-- The array `self.counts`. -/
def counts (s : UCBAgent) : List ℚ := s.arms.map (·.count)

/-- `UCBAgent.get_action`. -/
noncomputable def get_action (s : UCBAgent) (pick : ℕ) : List ℝ :=
  if npMin s.counts = 0 then
    oneHot s.arms.length (randomChoice (zeroIdxs s.counts) pick)
  else
    s.arms.map (fun a =>
      (a.value : ℝ) + 3 * Real.sqrt (2 * Real.log (s.total_time_steps : ℕ) / (a.count : ℝ)))

/-- One external call on the agent. -/
inductive Op where
  | init (n : ℕ)
  | update (actions : List ℚ) (state : List ℚ)

/-- Apply one call. -/
def step (s : UCBAgent) : Op → UCBAgent
  | .init n => s.init n
  | .update a st => s.update a st

/-- The state after a sequence of calls on a freshly constructed agent. -/
def run (ops : List Op) : UCBAgent := ops.foldl step new

end UCBAgent

/-! ## Sliding-Window UCB agent (`class SlidingWindowUCBAgent`) -/

/-- `deque(maxlen=W).append(x)` on a deque currently holding `d`
(oldest first): the result keeps only the last `W` elements. -/
def dequePush (W : ℕ) (d : List ℚ) (x : ℚ) : List ℚ :=
  (d ++ [x]).drop ((d ++ [x]).length - W)

/-- Per-arm slice of `counts`, `values`, `recent_rewards[i]`,
`recent_counts[i]`, `recent_rewards_sum`, `recent_counts_sum`.
The deques hold their oldest element first, so `d[0] = d.headI`
(`headI` defaults to `0` on an empty deque; Python raises there, which
can only happen when `window_size = 0`). -/
structure SWArm where
  count : ℚ
  value : ℚ
  recent_rewards : List ℚ
  recent_counts : List ℚ
  recent_rewards_sum : ℚ
  recent_counts_sum : ℚ
deriving Repr, DecidableEq

/-- State of `SlidingWindowUCBAgent`; `self.c = 3` is inlined. -/
structure SlidingWindowUCBAgent where
  window_size : ℕ
  total_time_steps : ℕ
  arms : List SWArm
deriving Repr, DecidableEq

namespace SlidingWindowUCBAgent

/-- `__init__(window_size)`. -/
def new (window_size : ℕ) : SlidingWindowUCBAgent := ⟨window_size, 0, []⟩

/-- `initialize(n_actions)`: fresh zero arrays and empty deques;
`total_time_steps` is NOT touched by the source. -/
def init (s : SlidingWindowUCBAgent) (n : ℕ) : SlidingWindowUCBAgent :=
  ⟨s.window_size, s.total_time_steps, List.replicate n ⟨0, 0, [], [], 0, 0⟩⟩

/-- Loop body of `SlidingWindowUCBAgent.update` for one arm: on a valid
reward, subtract the element about to be evicted from both rolling sums
(only when the reward deque is at capacity), push `(reward, 1)` and add it
to the sums; on a missing reward, push `(0, 0)` WITHOUT adjusting the
sums — exactly as in the source. -/
def armUpdate (W : ℕ) (a : SWArm) (reward : ℚ) : SWArm :=
  if 0 ≤ reward then
    let rrs : ℚ := if a.recent_rewards.length = W then
      a.recent_rewards_sum - a.recent_rewards.headI else a.recent_rewards_sum
    let rcs : ℚ := if a.recent_rewards.length = W then
      a.recent_counts_sum - a.recent_counts.headI else a.recent_counts_sum
    { count := a.count + 1
      value := a.value
      recent_rewards := dequePush W a.recent_rewards reward
      recent_counts := dequePush W a.recent_counts 1
      recent_rewards_sum := rrs + reward
      recent_counts_sum := rcs + 1 }
  else
    { a with
      count := a.count + 0
      recent_rewards := dequePush W a.recent_rewards 0
      recent_counts := dequePush W a.recent_counts 0 }

/-- `SlidingWindowUCBAgent.update(actions, state)`. -/
def update (s : SlidingWindowUCBAgent) (actions : List ℚ) (state : List ℚ) :
    SlidingWindowUCBAgent :=
  ⟨s.window_size, s.total_time_steps + 1, zipUpd (armUpdate s.window_size) s.arms state⟩

/-- The array `self.counts`. -/
def counts (s : SlidingWindowUCBAgent) : List ℚ := s.arms.map (·.count)

/-- `SlidingWindowUCBAgent.get_action`. -/
noncomputable def get_action (s : SlidingWindowUCBAgent) (pick : ℕ) : List ℝ :=
  if npMin s.counts = 0 then
    oneHot s.arms.length (randomChoice (zeroIdxs s.counts) pick)
  else
    s.arms.map (fun a =>
      (a.recent_rewards_sum : ℝ) / (a.recent_counts_sum : ℝ)
        + 3 * Real.sqrt (2 * Real.log ((min s.total_time_steps s.window_size : ℕ) : ℝ)
            / (a.recent_counts_sum : ℝ)))

/-- One external call on the agent. -/
inductive Op where
  | init (n : ℕ)
  | update (actions : List ℚ) (state : List ℚ)

/-- Apply one call. -/
def step (s : SlidingWindowUCBAgent) : Op → SlidingWindowUCBAgent
  | .init n => s.init n
  | .update a st => s.update a st

/-- The state after a sequence of calls on a freshly constructed agent
with window size `W`. -/
def run (W : ℕ) (ops : List Op) : SlidingWindowUCBAgent :=
  ops.foldl step (new W)

end SlidingWindowUCBAgent

/-! ## Discounted UCB agent (`class DiscountedUCBAgent`) -/

/-- Per-arm slice of `counts`, `values`, `discounted_counts`,
`discounted_rewards`. -/
structure DUCBArm where
  count : ℚ
  value : ℚ
  discounted_count : ℚ
  discounted_reward : ℚ
deriving Repr, DecidableEq

/-- State of `DiscountedUCBAgent`; `self.c = 3` is inlined. -/
structure DiscountedUCBAgent where
  gamma : ℚ
  total_time_steps : ℚ
  arms : List DUCBArm
deriving Repr, DecidableEq

namespace DiscountedUCBAgent

/-- `__init__(gamma)`. -/
def new (gamma : ℚ) : DiscountedUCBAgent := ⟨gamma, 0, []⟩

/-- `initialize(n_actions)`: fresh zero arrays; `total_time_steps` is NOT
touched by the source. -/
def init (s : DiscountedUCBAgent) (n : ℕ) : DiscountedUCBAgent :=
  ⟨s.gamma, s.total_time_steps, List.replicate n ⟨0, 0, 0, 0⟩⟩

/-- `self.discounted_counts *= gamma; self.discounted_rewards *= gamma`
for one arm. -/
def decay (gamma : ℚ) (a : DUCBArm) : DUCBArm :=
  { a with
    discounted_count := a.discounted_count * gamma
    discounted_reward := a.discounted_reward * gamma }

/-- Loop body of `DiscountedUCBAgent.update` for one arm (runs after the
decay pass). -/
def armAdd (a : DUCBArm) (reward : ℚ) : DUCBArm :=
  if 0 ≤ reward then
    { a with
      count := a.count + 1
      value := a.value + reward
      discounted_count := a.discounted_count + 1
      discounted_reward := a.discounted_reward + reward }
  else
    { a with count := a.count + 0 }

/-- `DiscountedUCBAgent.update(actions, state)`: decay everything first
(`t = γ·t + 1`, all arms scaled by `γ`), then add valid observations. -/
def update (s : DiscountedUCBAgent) (actions : List ℚ) (state : List ℚ) :
    DiscountedUCBAgent :=
  ⟨s.gamma, s.gamma * s.total_time_steps + 1,
    zipUpd armAdd (s.arms.map (decay s.gamma)) state⟩

/-- The array `self.counts`. -/
def counts (s : DiscountedUCBAgent) : List ℚ := s.arms.map (·.count)

/-- `DiscountedUCBAgent.get_action`. -/
noncomputable def get_action (s : DiscountedUCBAgent) (pick : ℕ) : List ℝ :=
  if npMin s.counts = 0 then
    oneHot s.arms.length (randomChoice (zeroIdxs s.counts) pick)
  else
    s.arms.map (fun a =>
      (a.discounted_reward : ℝ) / (a.discounted_count : ℝ)
        + 3 * Real.sqrt (max (2 * Real.log (s.total_time_steps : ℝ)
            / (a.discounted_count : ℝ)) 0))

end DiscountedUCBAgent

/-! ## Failure behaviour of construction / initialization

The source performs no configuration validation at all; the only failures
are the ones raised by numpy / `collections.deque` themselves. -/

/-- The Python exceptions that construction + initialization can raise. -/
inductive PyError where
  | valueError (msg : String)
deriving Repr, DecidableEq

/-- `UCBAgent()` followed by `initialize(n_actions)` for an arbitrary
integer `n_actions`: `np.zeros` rejects negative sizes, everything else
is accepted. -/
def UCBAgent.constructInit (n_actions : ℤ) : Except PyError UCBAgent :=
  if n_actions < 0 then
    .error (.valueError "negative dimensions are not allowed")
  else
    .ok (UCBAgent.new.init n_actions.toNat)

/-- `SlidingWindowUCBAgent(window_size)` followed by
`initialize(n_actions)`: construction itself stores the window and cannot
fail; `initialize` first builds `np.zeros(n_actions)` (rejecting negative
sizes), then `[deque(maxlen=window_size) for _ in range(n_actions)]` —
the deque constructor, which rejects a negative maxlen, runs inside the
comprehension and is therefore only evaluated when `n_actions ≥ 1`; with
`n_actions = 0` a negative window is accepted silently. (In that success
case Python stores the negative window unused in a zero-arm object whose
every later `select` raises on the empty array; the `.ok` payload here
clamps it to `0`, which only this raise/no-raise model observes.) -/
def SlidingWindowUCBAgent.constructInit (window_size n_actions : ℤ) :
    Except PyError SlidingWindowUCBAgent :=
  if n_actions < 0 then
    .error (.valueError "negative dimensions are not allowed")
  else if window_size < 0 ∧ 1 ≤ n_actions then
    .error (.valueError "maxlen must be non-negative")
  else
    .ok ((SlidingWindowUCBAgent.new window_size.toNat).init n_actions.toNat)

/-- `DiscountedUCBAgent(gamma)` followed by `initialize(n_actions)`:
`gamma` is stored unexamined; only a negative `n_actions` fails. -/
def DiscountedUCBAgent.constructInit (gamma : ℚ) (n_actions : ℤ) :
    Except PyError DiscountedUCBAgent :=
  if n_actions < 0 then
    .error (.valueError "negative dimensions are not allowed")
  else
    .ok ((DiscountedUCBAgent.new gamma).init n_actions.toNat)

/-! ## Derived notions used by the verification -/

/-- The reward vector that feeds `r` to arm `j` and the missing sentinel
`-1` to every other arm. -/
def exclusiveFeed (n j : ℕ) (r : ℚ) : List ℚ :=
  (List.range n).map (fun i => if i = j then r else -1)

/-- Feed a sequence of rewards exclusively to arm `j` of a UCB1 agent
with `n` arms. -/
def UCBAgent.feedSolo (n j : ℕ) (rs : List ℚ) (s : UCBAgent) : UCBAgent :=
  rs.foldl (fun t r => t.update [] (exclusiveFeed n j r)) s

/-- Structural invariant of one sliding-window arm: deque occupancy is
bounded by the window, both deques stay in lockstep, the validity deque
holds only `0`/`1`, the maintained rolling count is at least the true
deque content sum, and any arm pulled at least once keeps a rolling count
of at least `1`. -/
def SWArm.Inv (W : ℕ) (a : SWArm) : Prop :=
  a.recent_rewards.length = a.recent_counts.length ∧
  a.recent_counts.length ≤ W ∧
  (∀ x ∈ a.recent_counts, x = 0 ∨ x = 1) ∧
  a.recent_counts.sum ≤ a.recent_counts_sum ∧
  (1 ≤ a.count → 1 ≤ a.recent_counts_sum)

/-- Invariant of a sliding-window agent state: every arm satisfies
`SWArm.Inv` for the agent's window size. -/
def SlidingWindowUCBAgent.Inv (s : SlidingWindowUCBAgent) : Prop :=
  ∀ a ∈ s.arms, SWArm.Inv s.window_size a

/-- Invariant of a UCB1 agent state: while the step counter is still `0`,
no arm can have been counted. -/
def UCBAgent.Inv (s : UCBAgent) : Prop :=
  s.total_time_steps = 0 → ∀ a ∈ s.arms, a.count = 0

/-- The call did not raise. -/
def pyOk {α : Type} (e : Except PyError α) : Prop :=
  ∃ s, e = Except.ok s

/-! ## Helper lemmas -/

theorem headI_mem {l : List ℚ} (h : l ≠ []) : l.headI ∈ l := by
  cases l with
  | nil => simp at h
  | cons a t => simp

theorem npMin_mem {l : List ℚ} (h : l ≠ []) : npMin l ∈ l := by
  have key : ∀ (a : ℚ) (m : List ℚ), m.foldr min a = a ∨ m.foldr min a ∈ m := by
    intro a m
    induction m with
    | nil => left; rfl
    | cons x xs ih =>
      rw [List.foldr_cons]
      rcases min_choice x (xs.foldr min a) with h1 | h1 <;> rw [h1]
      · right; exact List.mem_cons_self x xs
      · rcases ih with h2 | h2
        · left; exact h2
        · right; exact List.mem_cons_of_mem _ h2
  rcases key l.headI l with h1 | h1
  · rw [npMin, h1]; exact headI_mem h
  · exact h1

theorem getD_pos {α : Type} (l : List α) (d : α) {i : ℕ} (h : i < l.length) :
    l.getD i d = l[i] :=
  List.getD_eq_getElem l d h

theorem getD_neg {α : Type} (l : List α) (d : α) {i : ℕ} (h : ¬ i < l.length) :
    l.getD i d = d := by
  simp only [List.getD_eq_getElem?_getD]
  rw [List.getElem?_eq_none (by omega)]
  rfl

theorem zipUpd_nil {α : Type} (f : α → ℚ → α) (arms : List α) :
    zipUpd f arms [] = arms := by
  simp [zipUpd]

theorem zipUpd_nil_arms {α : Type} (f : α → ℚ → α) (st : List ℚ) :
    zipUpd f [] st = [] := by
  simp [zipUpd]

theorem zipUpd_cons {α : Type} (f : α → ℚ → α) (a : α) (arms : List α) (r : ℚ)
    (st : List ℚ) :
    zipUpd f (a :: arms) (r :: st) = f a r :: zipUpd f arms st := by
  simp [zipUpd, List.drop_succ_cons]

theorem length_zipUpd {α : Type} (f : α → ℚ → α) (arms : List α) (st : List ℚ) :
    (zipUpd f arms st).length = arms.length := by
  simp [zipUpd]
  omega

theorem zipUpd_getD {α : Type} (f : α → ℚ → α) (d : α) :
    ∀ (arms : List α) (st : List ℚ) (j : ℕ), j < arms.length →
      (zipUpd f arms st).getD j d =
        if j < st.length then f (arms.getD j d) (st.getD j 0) else arms.getD j d := by
  intro arms
  induction arms with
  | nil => intro st j hj; simp at hj
  | cons a arms ih =>
    intro st j hj
    cases st with
    | nil => rw [zipUpd_nil]; simp
    | cons r st =>
      rw [zipUpd_cons]
      cases j with
      | zero => simp [List.getD_cons_zero]
      | succ j =>
        simp only [List.getD_cons_succ]
        have hj' : j < arms.length := by simpa using hj
        rw [ih st j hj']
        simp [Nat.succ_lt_succ_iff]

theorem mem_zipUpd {α : Type} {f : α → ℚ → α} {arms : List α} {st : List ℚ} {b : α}
    (hb : b ∈ zipUpd f arms st) : b ∈ arms ∨ ∃ a ∈ arms, ∃ r, b = f a r := by
  induction arms generalizing st with
  | nil => rw [zipUpd_nil_arms] at hb; simp at hb
  | cons a arms ih =>
    cases st with
    | nil => rw [zipUpd_nil] at hb; left; exact hb
    | cons r st =>
      rw [zipUpd_cons] at hb
      rcases List.mem_cons.mp hb with h | h
      · right; exact ⟨a, List.mem_cons_self a arms, r, h⟩
      · rcases ih h with h1 | ⟨a', ha', r', he⟩
        · left; exact List.mem_cons_of_mem _ h1
        · right; exact ⟨a', List.mem_cons_of_mem _ ha', r', he⟩

theorem length_oneHot (n idx : ℕ) : (oneHot n idx).length = n := by
  simp [oneHot]

theorem oneHot_getD (n idx j : ℕ) (hj : j < n) :
    (oneHot n idx).getD j 0 = if j = idx then 1 else 0 := by
  have h1 : j < (oneHot n idx).length := by rw [length_oneHot]; exact hj
  rw [getD_pos _ _ h1]
  simp [oneHot]

theorem isOneHot_oneHot {n idx : ℕ} (h : idx < n) : IsOneHot (oneHot n idx) := by
  refine ⟨idx, ?_, ?_, ?_⟩
  · rw [length_oneHot]; exact h
  · rw [oneHot_getD n idx idx h]; simp
  · intro k hk hne
    rw [length_oneHot] at hk
    rw [oneHot_getD n idx k hk]
    simp [hne]

theorem mem_zeroIdxs {counts : List ℚ} {i : ℕ} :
    i ∈ zeroIdxs counts ↔ i < counts.length ∧ counts.getD i 1 = 0 := by
  simp [zeroIdxs, List.mem_filter, List.mem_range]

theorem randomChoice_mem {l : List ℕ} (h : l ≠ []) (pick : ℕ) :
    randomChoice l pick ∈ l := by
  rw [randomChoice]
  have hlen : 0 < l.length := List.length_pos.mpr h
  have hmod : pick % l.length < l.length := Nat.mod_lt _ hlen
  rw [getD_pos _ _ hmod]
  exact List.getElem_mem hmod

theorem coldChoice {counts : List ℚ} (hne : counts ≠ []) (hmin : npMin counts = 0)
    (pick : ℕ) :
    randomChoice (zeroIdxs counts) pick < counts.length ∧
      counts.getD (randomChoice (zeroIdxs counts) pick) 1 = 0 := by
  have h0 : (0 : ℚ) ∈ counts := hmin ▸ npMin_mem hne
  obtain ⟨i, hilt, hie⟩ := List.mem_iff_getElem.mp h0
  have hiz : i ∈ zeroIdxs counts :=
    mem_zeroIdxs.mpr ⟨hilt, by rw [getD_pos _ _ hilt]; exact hie⟩
  have hzne : zeroIdxs counts ≠ [] := List.ne_nil_of_mem hiz
  exact mem_zeroIdxs.mp (randomChoice_mem hzne pick)

theorem sum_drop_le {l : List ℚ} (h : ∀ x ∈ l, 0 ≤ x) (k : ℕ) :
    (l.drop k).sum ≤ l.sum := by
  calc (l.drop k).sum ≤ (l.take k).sum + (l.drop k).sum := by
        have h0 : 0 ≤ (l.take k).sum :=
          List.sum_nonneg (fun x hx => h x (List.mem_of_mem_take hx))
        linarith
    _ = l.sum := by rw [← List.sum_append, List.take_append_drop]

/-! ## Claim theorems -/

/-- C10: for every policy variant the state transition performed by
`update(actions, state)` is independent of the `actions` argument: from
equal internal states, updates with the same reward vector but any two
`actions` values produce identical successor states. -/
theorem claim_C10_update_ignores_actions :
    (∀ (s : UCBAgent) (a₁ a₂ st : List ℚ), s.update a₁ st = s.update a₂ st) ∧
    (∀ (s : SlidingWindowUCBAgent) (a₁ a₂ st : List ℚ),
      s.update a₁ st = s.update a₂ st) ∧
    (∀ (s : DiscountedUCBAgent) (a₁ a₂ st : List ℚ),
      s.update a₁ st = s.update a₂ st) :=
  ⟨fun _ _ _ _ => rfl, fun _ _ _ _ => rfl, fun _ _ _ _ => rfl⟩

/-- C4 (amended): for every variant, `initialize(n_arms)` resets all
per-arm state to zero and keeps the configuration, but does NOT reset the
global step counter `total_time_steps` — the counter is zeroed only at
construction. -/
theorem claim_C4_init_resets_arms_not_counter :
    (∀ (s : UCBAgent) (n : ℕ),
      (s.init n).arms = List.replicate n ⟨0, 0⟩ ∧
      (s.init n).total_time_steps = s.total_time_steps) ∧
    (∀ (s : SlidingWindowUCBAgent) (n : ℕ),
      (s.init n).arms = List.replicate n ⟨0, 0, [], [], 0, 0⟩ ∧
      (s.init n).total_time_steps = s.total_time_steps ∧
      (s.init n).window_size = s.window_size) ∧
    (∀ (s : DiscountedUCBAgent) (n : ℕ),
      (s.init n).arms = List.replicate n ⟨0, 0, 0, 0⟩ ∧
      (s.init n).total_time_steps = s.total_time_steps ∧
      (s.init n).gamma = s.gamma) :=
  ⟨fun _ _ => ⟨rfl, rfl⟩, fun _ _ => ⟨rfl, rfl, rfl⟩, fun _ _ => ⟨rfl, rfl, rfl⟩⟩

/-- C4 (counterexample): after one update, re-initializing a UCB1 agent
leaves `total_time_steps = 1`, so the post-initialize state differs from
the state obtained by initializing a fresh agent, contrary to the claim
that they are identical. -/
theorem claim_C4_counterexample :
    ((UCBAgent.run [.init 1, .update [] [1]]).init 1).total_time_steps = 1 ∧
    (UCBAgent.new.init 1).total_time_steps = 0 ∧
    (UCBAgent.run [.init 1, .update [] [1]]).init 1 ≠ UCBAgent.new.init 1 := by
  refine ⟨rfl, rfl, ?_⟩
  intro h
  have h2 := congrArg UCBAgent.total_time_steps h
  simp [UCBAgent.run, UCBAgent.step, UCBAgent.update, UCBAgent.init, UCBAgent.new] at h2

/-- C5 (counterexample): an arm count of `0`, a window size of `0` (and
even a negative window when no arm forces the deque constructor to run),
and a discount factor of `2 ∉ (0, 1]` are all accepted silently —
construction plus `initialize` return a state instead of raising
`InvalidConfig`. -/
theorem claim_C5_counterexample :
    UCBAgent.constructInit 0 = Except.ok (UCBAgent.new.init 0) ∧
    SlidingWindowUCBAgent.constructInit 0 1 =
      Except.ok ((SlidingWindowUCBAgent.new 0).init 1) ∧
    SlidingWindowUCBAgent.constructInit (-1) 0 =
      Except.ok ((SlidingWindowUCBAgent.new 0).init 0) ∧
    DiscountedUCBAgent.constructInit 2 1 =
      Except.ok ((DiscountedUCBAgent.new 2).init 1) := by
  refine ⟨rfl, ?_, ?_, rfl⟩
  · rw [SlidingWindowUCBAgent.constructInit]
    rw [if_neg (by omega), if_neg (by omega)]
    rfl
  · rw [SlidingWindowUCBAgent.constructInit]
    rw [if_neg (by omega), if_neg (by omega)]
    rfl

/-- C5 (amended): no configuration validation exists. Construction never
raises; construction plus `initialize` succeed exactly when the failures
of numpy (`np.zeros` of a negative size) and of `deque` (a negative
`maxlen`, evaluated only inside the comprehension over `range(n_actions)`,
hence only when at least one arm exists) are avoided; `n_arms = 0`,
`window_size = 0`, a negative window with zero arms, and every discount
factor, including those outside `(0, 1]`, are accepted. -/
theorem claim_C5_no_validation (W n : ℤ) (g : ℚ) :
    (pyOk (UCBAgent.constructInit n) ↔ 0 ≤ n) ∧
    (pyOk (SlidingWindowUCBAgent.constructInit W n) ↔ 0 ≤ n ∧ (0 ≤ W ∨ n = 0)) ∧
    (pyOk (DiscountedUCBAgent.constructInit g n) ↔ 0 ≤ n) := by
  refine ⟨?_, ?_, ?_⟩
  · rw [UCBAgent.constructInit]
    split_ifs with h
    · exact ⟨fun ⟨s, hs⟩ => by simp at hs, fun hn => absurd hn (by omega)⟩
    · exact ⟨fun _ => by omega, fun _ => ⟨_, rfl⟩⟩
  · rw [SlidingWindowUCBAgent.constructInit]
    split_ifs with h1 h2
    · exact ⟨fun ⟨s, hs⟩ => by simp at hs, fun hn => by omega⟩
    · exact ⟨fun ⟨s, hs⟩ => by simp at hs, fun hn => by omega⟩
    · exact ⟨fun _ => by omega, fun _ => ⟨_, rfl⟩⟩
  · rw [DiscountedUCBAgent.constructInit]
    split_ifs with h
    · exact ⟨fun ⟨s, hs⟩ => by simp at hs, fun hn => absurd hn (by omega)⟩
    · exact ⟨fun _ => by omega, fun _ => ⟨_, rfl⟩⟩

/-- C1 (code bug): with `window_size = 1`, one arm, a valid reward `1`
and then a missing reward, the invalid push evicts the element `1` from
the at-capacity FIFO without subtracting it from the rolling sums: the
maintained `recent_rewards_sum` stays `1` while the FIFO now sums to `0`
(and likewise for the validity FIFO), so the rolling sums do not equal
the FIFO contents. -/
theorem claim_C1_rolling_sum_desync :
    ((SlidingWindowUCBAgent.run 1 [.init 1, .update [] [1], .update [] [-1]]).arms.map
        (fun a => a.recent_rewards_sum)) = [1] ∧
    ((SlidingWindowUCBAgent.run 1 [.init 1, .update [] [1], .update [] [-1]]).arms.map
        (fun a => a.recent_rewards.sum)) = [0] ∧
    ((SlidingWindowUCBAgent.run 1 [.init 1, .update [] [1], .update [] [-1]]).arms.map
        (fun a => a.recent_counts_sum)) = [1] ∧
    ((SlidingWindowUCBAgent.run 1 [.init 1, .update [] [1], .update [] [-1]]).arms.map
        (fun a => a.recent_counts.sum)) = [0] ∧
    (1 : ℚ) ≠ 0 := by
  have hrun : SlidingWindowUCBAgent.run 1 [.init 1, .update [] [1], .update [] [-1]] =
      ⟨1, 2, [⟨1, 0, [0], [0], 1, 1⟩]⟩ := by
    simp [SlidingWindowUCBAgent.run, SlidingWindowUCBAgent.step,
      SlidingWindowUCBAgent.update, SlidingWindowUCBAgent.init,
      SlidingWindowUCBAgent.new, SlidingWindowUCBAgent.armUpdate, dequePush, zipUpd]
  rw [hrun]
  refine ⟨?_, ?_, ?_, ?_, ?_⟩ <;> norm_num

/-- Helper: updating a freshly initialized arm row with an all-valid
reward vector gives every touched arm a count of `1`. -/
theorem zipUpd_replicate_map {α : Type} (f : α → ℚ → α) (g : α → ℚ) (a : α)
    (hfg : ∀ r, 0 ≤ r → g (f a r) = 1) :
    ∀ (rs : List ℚ) (n : ℕ), rs.length = n → (∀ r ∈ rs, 0 ≤ r) →
      (zipUpd f (List.replicate n a) rs).map g = List.replicate n 1 := by
  intro rs
  induction rs with
  | nil =>
    intro n hn _
    subst hn
    simp [zipUpd_nil]
  | cons r rs ih =>
    intro n hn hv
    subst hn
    simp only [List.length_cons, List.replicate_succ]
    rw [zipUpd_cons, List.map_cons, hfg r (hv r (List.mem_cons_self _ _)),
      ih rs.length rfl (fun x hx => hv x (List.mem_cons_of_mem _ hx))]

/-- C3 (amended): for each of the three variants, whenever some arm has
count `0`, `get_action` returns the one-hot vector of a zero-count arm
and the confidence-bound branch is not taken. However, the second part
of the claim fails: `update` feeds the reward vector to EVERY arm, so a
single update with all-valid rewards raises every count to `1` and the
cold-start phase lasts exactly one step — the arms are not each visited
once before a confidence-bound score is computed (see the
counterexample). -/
theorem claim_C3_cold_start_one_hot :
    (∀ (s : UCBAgent) (pick : ℕ), s.arms ≠ [] → npMin s.counts = 0 →
      ∃ j, j < s.arms.length ∧ s.counts.getD j 1 = 0 ∧
        s.get_action pick = oneHot s.arms.length j ∧ IsOneHot (s.get_action pick)) ∧
    (∀ (s : SlidingWindowUCBAgent) (pick : ℕ), s.arms ≠ [] → npMin s.counts = 0 →
      ∃ j, j < s.arms.length ∧ s.counts.getD j 1 = 0 ∧
        s.get_action pick = oneHot s.arms.length j ∧ IsOneHot (s.get_action pick)) ∧
    (∀ (s : DiscountedUCBAgent) (pick : ℕ), s.arms ≠ [] → npMin s.counts = 0 →
      ∃ j, j < s.arms.length ∧ s.counts.getD j 1 = 0 ∧
        s.get_action pick = oneHot s.arms.length j ∧ IsOneHot (s.get_action pick)) ∧
    (∀ (W n : ℕ) (g : ℚ) (acts rs : List ℚ), rs.length = n → (∀ r ∈ rs, 0 ≤ r) →
      ((UCBAgent.new.init n).update acts rs).counts = List.replicate n 1 ∧
      (((SlidingWindowUCBAgent.new W).init n).update acts rs).counts =
        List.replicate n 1 ∧
      (((DiscountedUCBAgent.new g).init n).update acts rs).counts =
        List.replicate n 1) := by
  refine ⟨?_, ?_, ?_, ?_⟩
  · intro s pick hne hmin
    have hcne : s.counts ≠ [] := by
      simpa only [UCBAgent.counts, ne_eq, List.map_eq_nil_iff] using hne
    obtain ⟨hlt, hz⟩ := coldChoice hcne hmin pick
    have hlen : s.counts.length = s.arms.length := by simp [UCBAgent.counts]
    have hact : s.get_action pick =
        oneHot s.arms.length (randomChoice (zeroIdxs s.counts) pick) := by
      simp only [UCBAgent.get_action]
      rw [if_pos hmin]
    exact ⟨randomChoice (zeroIdxs s.counts) pick, hlen ▸ hlt, hz, hact,
      hact ▸ isOneHot_oneHot (hlen ▸ hlt)⟩
  · intro s pick hne hmin
    have hcne : s.counts ≠ [] := by
      simpa only [SlidingWindowUCBAgent.counts, ne_eq, List.map_eq_nil_iff] using hne
    obtain ⟨hlt, hz⟩ := coldChoice hcne hmin pick
    have hlen : s.counts.length = s.arms.length := by
      simp [SlidingWindowUCBAgent.counts]
    have hact : s.get_action pick =
        oneHot s.arms.length (randomChoice (zeroIdxs s.counts) pick) := by
      simp only [SlidingWindowUCBAgent.get_action]
      rw [if_pos hmin]
    exact ⟨randomChoice (zeroIdxs s.counts) pick, hlen ▸ hlt, hz, hact,
      hact ▸ isOneHot_oneHot (hlen ▸ hlt)⟩
  · intro s pick hne hmin
    have hcne : s.counts ≠ [] := by
      simpa only [DiscountedUCBAgent.counts, ne_eq, List.map_eq_nil_iff] using hne
    obtain ⟨hlt, hz⟩ := coldChoice hcne hmin pick
    have hlen : s.counts.length = s.arms.length := by
      simp [DiscountedUCBAgent.counts]
    have hact : s.get_action pick =
        oneHot s.arms.length (randomChoice (zeroIdxs s.counts) pick) := by
      simp only [DiscountedUCBAgent.get_action]
      rw [if_pos hmin]
    exact ⟨randomChoice (zeroIdxs s.counts) pick, hlen ▸ hlt, hz, hact,
      hact ▸ isOneHot_oneHot (hlen ▸ hlt)⟩
  · intro W n g acts rs hlen hv
    refine ⟨?_, ?_, ?_⟩
    · simp only [UCBAgent.counts, UCBAgent.update, UCBAgent.init]
      exact zipUpd_replicate_map UCBAgent.armUpdate (fun a => a.count) ⟨0, 0⟩
        (fun r hr => by simp [UCBAgent.armUpdate, if_pos hr]) rs n hlen hv
    · simp only [SlidingWindowUCBAgent.counts, SlidingWindowUCBAgent.update,
        SlidingWindowUCBAgent.init, SlidingWindowUCBAgent.new]
      exact zipUpd_replicate_map (SlidingWindowUCBAgent.armUpdate W)
        (fun a => a.count) ⟨0, 0, [], [], 0, 0⟩
        (fun r hr => by simp [SlidingWindowUCBAgent.armUpdate, if_pos hr]) rs n hlen hv
    · simp only [DiscountedUCBAgent.counts, DiscountedUCBAgent.update,
        DiscountedUCBAgent.init, DiscountedUCBAgent.new]
      have hdec : (List.replicate n (⟨0, 0, 0, 0⟩ : DUCBArm)).map
          (DiscountedUCBAgent.decay g) = List.replicate n ⟨0, 0, 0, 0⟩ := by
        rw [List.map_replicate]
        congr 1
        simp [DiscountedUCBAgent.decay]
      rw [hdec]
      exact zipUpd_replicate_map DiscountedUCBAgent.armAdd (fun a => a.count)
        ⟨0, 0, 0, 0⟩
        (fun r hr => by simp [DiscountedUCBAgent.armAdd, if_pos hr]) rs n hlen hv

/-- C3 (counterexample): with two arms and always-valid rewards, the
single first update already raises both counts to `1`, so the second
`select` computes confidence-bound scores — here `[1, 1]`, which is not
one-hot — although only one arm could have been visited; the claimed
"every arm exactly once before any confidence-bound score" fails. -/
theorem claim_C3_counterexample :
    npMin ((UCBAgent.new.init 2).update [] [1, 1]).counts = 1 ∧
    ((UCBAgent.new.init 2).update [] [1, 1]).get_action 0 = [1, 1] ∧
    ¬ IsOneHot (((UCBAgent.new.init 2).update [] [1, 1]).get_action 0) := by
  have hrun : (UCBAgent.new.init 2).update [] [1, 1] = ⟨1, [⟨1, 1⟩, ⟨1, 1⟩]⟩ := by
    simp [UCBAgent.update, UCBAgent.init, UCBAgent.new, UCBAgent.armUpdate, zipUpd]
  have hmin : npMin ((⟨1, [⟨1, 1⟩, ⟨1, 1⟩]⟩ : UCBAgent)).counts = 1 := by
    simp [UCBAgent.counts, npMin]
  have hact : (⟨1, [⟨1, 1⟩, ⟨1, 1⟩]⟩ : UCBAgent).get_action 0 = [1, 1] := by
    simp only [UCBAgent.get_action]
    rw [if_neg (by rw [hmin]; norm_num)]
    simp [Real.log_one, Real.sqrt_zero]
  have hnot : ¬ IsOneHot [(1 : ℝ), 1] := by
    rintro ⟨j, hj, h1, hk⟩
    simp only [List.length_cons, List.length_nil] at hj
    interval_cases j
    · have := hk 1 (by norm_num) (by norm_num)
      simp [List.getD] at this
    · have := hk 0 (by norm_num) (by norm_num)
      simp [List.getD] at this
  rw [hrun]
  exact ⟨hmin, hact, hact ▸ hnot⟩

/-- C3 (witness): the one-hot cold-start branch taken immediately after
`initialize` for each variant, and the end of the cold-start phase after
one all-valid update. -/
theorem claim_C3_witness :
    IsOneHot ((UCBAgent.new.init 2).get_action 0) ∧
    IsOneHot (((SlidingWindowUCBAgent.new 5).init 2).get_action 0) ∧
    IsOneHot (((DiscountedUCBAgent.new (9/10)).init 2).get_action 0) ∧
    ((UCBAgent.new.init 2).update [] [1, 1]).counts = List.replicate 2 1 := by
  obtain ⟨h1, h2, h3, h4⟩ := claim_C3_cold_start_one_hot
  refine ⟨?_, ?_, ?_, ?_⟩
  · obtain ⟨j, _, _, _, hoh⟩ := h1 (UCBAgent.new.init 2) 0
      (by simp [UCBAgent.init])
      (by simp [UCBAgent.counts, UCBAgent.init, UCBAgent.new, npMin])
    exact hoh
  · obtain ⟨j, _, _, _, hoh⟩ := h2 ((SlidingWindowUCBAgent.new 5).init 2) 0
      (by simp [SlidingWindowUCBAgent.init])
      (by simp [SlidingWindowUCBAgent.counts, SlidingWindowUCBAgent.init,
        SlidingWindowUCBAgent.new, npMin])
    exact hoh
  · obtain ⟨j, _, _, _, hoh⟩ := h3 ((DiscountedUCBAgent.new (9/10)).init 2) 0
      (by simp [DiscountedUCBAgent.init])
      (by simp [DiscountedUCBAgent.counts, DiscountedUCBAgent.init,
        DiscountedUCBAgent.new, npMin])
    exact hoh
  · exact (h4 5 2 (9/10) [] [1, 1] (by norm_num) (by norm_num)).1

/-- C7: the Discounted UCB update decays first (`t = γ·t + 1`, every
arm's `dcount`/`dreward` scaled by `γ`) and only then adds the valid
observations; an arm with a missing reward is exactly decayed, one with a
valid reward is decayed and then incremented. With `γ = 1/2`, a valid
reward `1` to the only arm followed by a step with no valid reward leaves
`count = 1`, `value = 1`, `dcount = 1/2`, `dreward = 1/2`. -/
theorem claim_C7_discounted_decay_first :
    (∀ (s : DiscountedUCBAgent) (acts st : List ℚ),
      (s.update acts st).total_time_steps = s.gamma * s.total_time_steps + 1) ∧
    (∀ (s : DiscountedUCBAgent) (acts st : List ℚ) (j : ℕ),
      j < s.arms.length → j < st.length → st.getD j 0 < 0 →
      (s.update acts st).arms.getD j ⟨0, 0, 0, 0⟩ =
        DiscountedUCBAgent.decay s.gamma (s.arms.getD j ⟨0, 0, 0, 0⟩)) ∧
    (∀ (s : DiscountedUCBAgent) (acts st : List ℚ) (j : ℕ),
      j < s.arms.length → j < st.length → 0 ≤ st.getD j 0 →
      (s.update acts st).arms.getD j ⟨0, 0, 0, 0⟩ =
        DiscountedUCBAgent.armAdd
          (DiscountedUCBAgent.decay s.gamma (s.arms.getD j ⟨0, 0, 0, 0⟩))
          (st.getD j 0)) ∧
    ((((DiscountedUCBAgent.new (1/2)).init 1).update [] [1]).update [] [-1]).arms =
      [⟨1, 1, 1/2, 1/2⟩] := by
  have harm : ∀ (s : DiscountedUCBAgent) (acts st : List ℚ) (j : ℕ),
      j < s.arms.length → j < st.length →
      (s.update acts st).arms.getD j ⟨0, 0, 0, 0⟩ =
        DiscountedUCBAgent.armAdd
          (DiscountedUCBAgent.decay s.gamma (s.arms.getD j ⟨0, 0, 0, 0⟩))
          (st.getD j 0) := by
    intro s acts st j hj hst
    have hmap : j < (s.arms.map (DiscountedUCBAgent.decay s.gamma)).length := by
      simpa using hj
    rw [DiscountedUCBAgent.update]
    rw [zipUpd_getD _ _ _ _ _ hmap, if_pos hst]
    congr 1
    rw [getD_pos _ _ hmap, getD_pos _ _ hj, List.getElem_map]
  refine ⟨fun _ _ _ => rfl, ?_, ?_, ?_⟩
  · intro s acts st j hj hst hneg
    rw [harm s acts st j hj hst]
    have : ¬ 0 ≤ st.getD j 0 := not_le.mpr hneg
    rw [DiscountedUCBAgent.armAdd, if_neg this]
    simp [DiscountedUCBAgent.decay]
  · intro s acts st j hj hst _
    exact harm s acts st j hj hst
  · have hrun : (((DiscountedUCBAgent.new (1/2)).init 1).update [] [1]).update [] [-1] =
        ⟨1/2, 3/2, [⟨1, 1, 1/2, 1/2⟩]⟩ := by
      simp [DiscountedUCBAgent.update, DiscountedUCBAgent.init, DiscountedUCBAgent.new,
        DiscountedUCBAgent.armAdd, DiscountedUCBAgent.decay, zipUpd]
      norm_num
    rw [hrun]

/-- C7 (witness): the decay-only and decay-then-add laws applied to the
concrete `γ = 1/2` trace of the claim. -/
theorem claim_C7_witness :
    ((((DiscountedUCBAgent.new (1/2)).init 1).update [] [1]).update [] [-1]).arms.getD 0
        ⟨0, 0, 0, 0⟩ =
      DiscountedUCBAgent.decay (1/2)
        ((((DiscountedUCBAgent.new (1/2)).init 1).update [] [1]).arms.getD 0
          ⟨0, 0, 0, 0⟩) ∧
    ((((DiscountedUCBAgent.new (1/2)).init 1).update [] [1]).arms.getD 0 ⟨0, 0, 0, 0⟩ =
      DiscountedUCBAgent.armAdd
        (DiscountedUCBAgent.decay (1/2)
          (((DiscountedUCBAgent.new (1/2)).init 1).arms.getD 0 ⟨0, 0, 0, 0⟩)) 1) := by
  constructor
  · exact claim_C7_discounted_decay_first.2.1 _ [] [-1] 0 (by decide) (by decide) (by decide)
  · exact claim_C7_discounted_decay_first.2.2.1 _ [] [1] 0 (by decide) (by decide) (by decide)

/-- C8: when no arm is cold-start (and every windowed valid-sum is
positive), the Sliding-Window `get_action` returns, for each arm,
`reward_sum/valid_sum + c·sqrt(2·ln(min(t, W))/valid_sum)` with `c = 3`:
the windowed valid-count is the denominator of both the mean and the
confidence bound, and the effective time is `min(total_time_steps, W)`. -/
theorem claim_C8_sliding_window_score (s : SlidingWindowUCBAgent) (pick : ℕ)
    (hmin : npMin s.counts ≠ 0)
    (hpos : ∀ a ∈ s.arms, 0 < a.recent_counts_sum) :
    s.get_action pick = s.arms.map (fun a =>
      (a.recent_rewards_sum : ℝ) / (a.recent_counts_sum : ℝ)
        + 3 * Real.sqrt (2 * Real.log ((min s.total_time_steps s.window_size : ℕ) : ℝ)
            / (a.recent_counts_sum : ℝ))) := by
  simp only [SlidingWindowUCBAgent.get_action]
  rw [if_neg hmin]

/-- C8 (witness): the score formula evaluated on the concrete state
reached by one valid reward `1` with window size `1`. -/
theorem claim_C8_witness :
    SlidingWindowUCBAgent.get_action ⟨1, 1, [⟨1, 0, [1], [1], 1, 1⟩]⟩ 0 =
      (⟨1, 1, [⟨1, 0, [1], [1], 1, 1⟩]⟩ : SlidingWindowUCBAgent).arms.map (fun a =>
        (a.recent_rewards_sum : ℝ) / (a.recent_counts_sum : ℝ)
          + 3 * Real.sqrt (2 * Real.log ((min (1 : ℕ) 1 : ℕ) : ℝ)
              / (a.recent_counts_sum : ℝ))) :=
  claim_C8_sliding_window_score ⟨1, 1, [⟨1, 0, [1], [1], 1, 1⟩]⟩ 0
    (by norm_num [SlidingWindowUCBAgent.counts, npMin])
    (by intro a ha; simp only [List.mem_singleton] at ha; subst ha; norm_num)

/-- Every state of a UCB1 agent reachable by construction, `initialize`
and `update` calls satisfies `UCBAgent.Inv`: a zero step counter forces
all counts to zero. -/
theorem ucbAgent_run_inv (ops : List UCBAgent.Op) : (UCBAgent.run ops).Inv := by
  have hstep : ∀ (s : UCBAgent) (op : UCBAgent.Op), s.Inv → (s.step op).Inv := by
    intro s op _
    cases op with
    | init n =>
      intro _ a ha
      simp only [UCBAgent.step, UCBAgent.init] at ha
      exact congrArg UCBArm.count (List.eq_of_mem_replicate ha)
    | update acts st =>
      intro ht
      simp only [UCBAgent.step, UCBAgent.update] at ht
      exact absurd ht (Nat.succ_ne_zero _)
  have key : ∀ (l : List UCBAgent.Op) (s : UCBAgent), s.Inv → (l.foldl UCBAgent.step s).Inv := by
    intro l
    induction l with
    | nil => intro s h; exact h
    | cons op rest ih =>
      intro s h
      rw [List.foldl_cons]
      exact ih _ (hstep s op h)
  exact key ops _ (fun _ a ha => absurd ha (List.not_mem_nil a))

/-- C9: for every sequence of `initialize`/`update` calls on a UCB1
agent, whenever `get_action` would take the confidence-bound branch
(`counts.min() ≠ 0` on a nonempty arm array), the step counter is at
least `1`, so `np.log` is only applied to a positive argument — the
log-of-non-positive case is unreachable under the cold-start guard. -/
theorem claim_C9_log_argument_positive (ops : List UCBAgent.Op)
    (hne : (UCBAgent.run ops).arms ≠ [])
    (hmin : npMin (UCBAgent.run ops).counts ≠ 0) :
    1 ≤ (UCBAgent.run ops).total_time_steps ∧
      (0 : ℝ) < (((UCBAgent.run ops).total_time_steps : ℕ) : ℝ) := by
  have h1 : 1 ≤ (UCBAgent.run ops).total_time_steps := by
    by_contra hcon
    have ht : (UCBAgent.run ops).total_time_steps = 0 := by omega
    have hall := ucbAgent_run_inv ops ht
    have hcne : (UCBAgent.run ops).counts ≠ [] := by
      simpa only [UCBAgent.counts, ne_eq, List.map_eq_nil_iff] using hne
    rcases List.mem_map.mp (npMin_mem hcne) with ⟨a, ha, heq⟩
    exact hmin (heq ▸ hall a ha)
  refine ⟨h1, ?_⟩
  have h0 : (0 : ℕ) < (UCBAgent.run ops).total_time_steps := h1
  exact_mod_cast h0

/-- C9 (witness): the confidence-bound branch is enabled after one valid
reward, and the step counter there is `1 ≥ 1`. -/
theorem claim_C9_witness :
    1 ≤ (UCBAgent.run [.init 1, .update [] [1]]).total_time_steps ∧
      (0 : ℝ) < (((UCBAgent.run [.init 1, .update [] [1]]).total_time_steps : ℕ) : ℝ) :=
  claim_C9_log_argument_positive [.init 1, .update [] [1]]
    (by simp [UCBAgent.run, UCBAgent.step, UCBAgent.update, UCBAgent.init,
      UCBAgent.new, zipUpd])
    (by norm_num [UCBAgent.run, UCBAgent.step, UCBAgent.update, UCBAgent.init,
      UCBAgent.new, UCBAgent.counts, UCBAgent.armUpdate, npMin, zipUpd])

theorem length_dequePush (W : ℕ) (d : List ℚ) (x : ℚ) :
    (dequePush W d x).length = min (d.length + 1) W := by
  simp [dequePush]
  omega

theorem mem_dequePush {W : ℕ} {d : List ℚ} {x y : ℚ} (h : y ∈ dequePush W d x) :
    y ∈ d ∨ y = x := by
  rw [dequePush] at h
  rcases List.mem_append.mp (List.mem_of_mem_drop h) with h3 | h3
  · left; exact h3
  · right; simpa using h3

theorem dequePush_at_cap {W : ℕ} {d : List ℚ} (hW : 1 ≤ W) (hd : d.length = W)
    (x : ℚ) : dequePush W d x = d.tail ++ [x] := by
  cases d with
  | nil => rw [List.length_nil] at hd; omega
  | cons a t =>
    have hlen : ((a :: t) ++ [x]).length - W = 1 := by
      simp only [List.length_append, List.length_cons, List.length_nil] at hd ⊢
      omega
    rw [dequePush, hlen]
    simp

theorem dequePush_under_cap {W : ℕ} {d : List ℚ} (hd : d.length < W) (x : ℚ) :
    dequePush W d x = d ++ [x] := by
  have h0 : (d ++ [x]).length - W = 0 := by
    simp only [List.length_append, List.length_cons, List.length_nil]
    omega
  rw [dequePush, h0, List.drop_zero]

theorem sum_dequePush_le {W : ℕ} {d : List ℚ} {x : ℚ} (hd : ∀ y ∈ d, 0 ≤ y)
    (hx : 0 ≤ x) : (dequePush W d x).sum ≤ d.sum + x := by
  have hall : ∀ y ∈ d ++ [x], 0 ≤ y := by
    intro y hy
    rcases List.mem_append.mp hy with h | h
    · exact hd y h
    · rw [List.mem_singleton.mp h]; exact hx
  calc (dequePush W d x).sum ≤ (d ++ [x]).sum := by
        rw [dequePush]; exact sum_drop_le hall _
    _ = d.sum + x := by simp

/-- The per-arm invariant is preserved by one `armUpdate`, for any reward
(valid or missing). -/
theorem armUpdate_inv {W : ℕ} {a : SWArm} (h : SWArm.Inv W a) (r : ℚ) :
    SWArm.Inv W (SlidingWindowUCBAgent.armUpdate W a r) := by
  obtain ⟨hlen, hcap, helem, hsum, hcount⟩ := h
  have hnn : ∀ y ∈ a.recent_counts, 0 ≤ y := by
    intro y hy
    rcases helem y hy with h0 | h0 <;> simp [h0]
  have hsnn : 0 ≤ a.recent_counts.sum := List.sum_nonneg hnn
  simp only [SlidingWindowUCBAgent.armUpdate]
  split_ifs with hr hW
  · -- valid reward, reward deque at capacity
    dsimp only [SWArm.Inv]
    have hclen : a.recent_counts.length = W := hlen ▸ hW
    rcases Nat.eq_zero_or_pos W with hW0 | hW1
    · -- degenerate window W = 0 (Python would raise IndexError here)
      subst hW0
      have hc0 : a.recent_counts = [] := List.eq_nil_of_length_eq_zero hclen
      have hrcs : 0 ≤ a.recent_counts_sum := by
        rw [hc0, List.sum_nil] at hsum; exact hsum
      have hh0 : a.recent_counts.headI = 0 := by rw [hc0]; rfl
      refine ⟨?_, ?_, ?_, ?_, ?_⟩
      · rw [length_dequePush, length_dequePush, hlen]
      · rw [length_dequePush]; omega
      · intro x hx
        rcases mem_dequePush hx with h0 | h0
        · exact helem x h0
        · right; exact h0
      · have hps : (dequePush 0 a.recent_counts 1).sum = 0 := by
          rw [hc0]; rfl
        rw [hps, hh0]
        linarith
      · intro _
        rw [hh0]
        linarith
    · cases hc : a.recent_counts with
      | nil => rw [hc, List.length_nil] at hclen; omega
      | cons ch ct =>
        rw [hc] at hlen hclen helem hsum hnn
        have hch : ch = 0 ∨ ch = 1 := helem ch (List.mem_cons_self _ _)
        have hctnn : 0 ≤ ct.sum :=
          List.sum_nonneg (fun y hy => hnn y (List.mem_cons_of_mem _ hy))
        rw [List.sum_cons] at hsum
        have hpc : dequePush W (ch :: ct) 1 = ct ++ [1] := by
          rw [dequePush_at_cap hW1 hclen]; rfl
        refine ⟨?_, ?_, ?_, ?_, ?_⟩
        · rw [length_dequePush, length_dequePush, hlen]
        · rw [length_dequePush]; omega
        · intro x hx
          rcases mem_dequePush hx with h0 | h0
          · exact helem x h0
          · right; exact h0
        · rw [hpc]
          simp only [List.sum_append, List.sum_cons, List.sum_nil, List.headI_cons]
          linarith
        · intro _
          rw [List.headI_cons]
          rcases hch with h0 | h0 <;> rw [h0] <;> linarith
  · -- valid reward, deque below capacity
    dsimp only [SWArm.Inv]
    have hrlt : a.recent_rewards.length < W := by
      rw [hlen]; omega
    have hclt : a.recent_counts.length < W := by omega
    refine ⟨?_, ?_, ?_, ?_, ?_⟩
    · rw [length_dequePush, length_dequePush, hlen]
    · rw [length_dequePush]; omega
    · intro x hx
      rcases mem_dequePush hx with h0 | h0
      · exact helem x h0
      · right; exact h0
    · rw [dequePush_under_cap hclt]
      simp only [List.sum_append, List.sum_cons, List.sum_nil]
      linarith
    · intro _
      linarith
  · -- missing reward: sums untouched, deques pushed (0, 0)
    dsimp only [SWArm.Inv]
    refine ⟨?_, ?_, ?_, ?_, ?_⟩
    · simp only [length_dequePush, hlen]
    · simp only [length_dequePush]; omega
    · intro x hx
      rcases mem_dequePush hx with h0 | h0
      · exact helem x h0
      · left; exact h0
    · calc (dequePush W a.recent_counts 0).sum ≤ a.recent_counts.sum + 0 :=
            sum_dequePush_le hnn le_rfl
        _ ≤ a.recent_counts_sum := by linarith
    · intro h1
      exact hcount (by linarith)

/-- Every reachable sliding-window state satisfies the invariant. -/
theorem slidingWindow_run_inv (W : ℕ) (ops : List SlidingWindowUCBAgent.Op) :
    (SlidingWindowUCBAgent.run W ops).Inv := by
  have hstep : ∀ (s : SlidingWindowUCBAgent) (op : SlidingWindowUCBAgent.Op),
      s.Inv → (s.step op).Inv := by
    intro s op h
    cases op with
    | init n =>
      intro a ha
      simp only [SlidingWindowUCBAgent.step, SlidingWindowUCBAgent.init] at ha ⊢
      rw [List.eq_of_mem_replicate ha]
      exact ⟨rfl, by simp, by simp, by simp, by intro h1; norm_num at h1⟩
    | update acts st =>
      intro a ha
      simp only [SlidingWindowUCBAgent.step, SlidingWindowUCBAgent.update] at ha ⊢
      rcases mem_zipUpd ha with h1 | ⟨a0, ha0, r, rfl⟩
      · exact h _ h1
      · exact armUpdate_inv (h a0 ha0) r
  have key : ∀ (l : List SlidingWindowUCBAgent.Op) (s : SlidingWindowUCBAgent),
      s.Inv → (l.foldl SlidingWindowUCBAgent.step s).Inv := by
    intro l
    induction l with
    | nil => intro s h; exact h
    | cons op rest ih =>
      intro s h
      rw [List.foldl_cons]
      exact ih _ (hstep s op h)
  exact key ops _ (fun a ha => absurd ha (List.not_mem_nil a))

/-- C2 (amended): in every reachable sliding-window state, an arm with
lifetime count at least `1` keeps a maintained `recent_counts_sum` of at
least `1` — even when the window has rolled so that the arm has no valid
observation left in its FIFO. Hence the confidence-bound branch never
divides by zero; but such an arm is NOT treated as cold-start (see the
counterexample): the maintained sum is merely stale, a byproduct of the
missing eviction subtraction on invalid pushes. -/
theorem claim_C2_window_count_sum_stays_positive (W : ℕ)
    (ops : List SlidingWindowUCBAgent.Op) (hW : 1 ≤ W) :
    ∀ a ∈ (SlidingWindowUCBAgent.run W ops).arms, 1 ≤ a.count →
      1 ≤ a.recent_counts_sum ∧ a.recent_counts_sum ≠ 0 := by
  intro a ha hc
  obtain ⟨_, _, _, _, hcount⟩ := slidingWindow_run_inv W ops a ha
  have h1 := hcount hc
  exact ⟨h1, by intro h0; rw [h0] at h1; norm_num at h1⟩

/-- C2 (counterexample): window size `1`, two arms; arm `0` gets a valid
reward then a missing one, so it has `count = 1` but zero valid
observations in its window (`recent_counts = [0]`); still `get_action`
takes the confidence-bound branch and returns `[1, 1/4]` — not a one-hot
vector, so the degenerate arm is not forced to be explored. -/
theorem claim_C2_counterexample :
    ((SlidingWindowUCBAgent.run 1
        [.init 2, .update [] [1, 1/2], .update [] [-1, 1/4]]).arms.map
      (fun a => (a.count, a.recent_counts.sum))) = [(1, 0), (2, 1)] ∧
    (SlidingWindowUCBAgent.run 1
        [.init 2, .update [] [1, 1/2], .update [] [-1, 1/4]]).get_action 0 =
      [1, 1/4] ∧
    ¬ IsOneHot ((SlidingWindowUCBAgent.run 1
        [.init 2, .update [] [1, 1/2], .update [] [-1, 1/4]]).get_action 0) := by
  have hrun : SlidingWindowUCBAgent.run 1
      [.init 2, .update [] [1, 1/2], .update [] [-1, 1/4]] =
      ⟨1, 2, [⟨1, 0, [0], [0], 1, 1⟩, ⟨2, 0, [1/4], [1], 1/4, 1⟩]⟩ := by
    simp [SlidingWindowUCBAgent.run, SlidingWindowUCBAgent.step,
      SlidingWindowUCBAgent.update, SlidingWindowUCBAgent.init,
      SlidingWindowUCBAgent.new, SlidingWindowUCBAgent.armUpdate, dequePush, zipUpd]
    norm_num
  have hact : (⟨1, 2, [⟨1, 0, [0], [0], 1, 1⟩, ⟨2, 0, [1/4], [1], 1/4, 1⟩]⟩ :
      SlidingWindowUCBAgent).get_action 0 = [1, 1/4] := by
    simp only [SlidingWindowUCBAgent.get_action]
    rw [if_neg (by norm_num [SlidingWindowUCBAgent.counts, npMin])]
    norm_num [Real.log_one, Real.sqrt_zero]
  have hnot : ¬ IsOneHot [(1 : ℝ), 1/4] := by
    rintro ⟨j, hj, h1, hk⟩
    simp only [List.length_cons, List.length_nil] at hj
    interval_cases j
    · have := hk 1 (by norm_num) (by norm_num)
      norm_num [List.getD] at this
    · norm_num [List.getD] at h1
  rw [hrun]
  refine ⟨by norm_num, hact, hact ▸ hnot⟩

/-- C2 (witness): the invariant applied to the arm obtained from one
valid reward with window size `1`. -/
theorem claim_C2_witness :
    1 ≤ (⟨1, 0, [1], [1], 1, 1⟩ : SWArm).recent_counts_sum ∧
      (⟨1, 0, [1], [1], 1, 1⟩ : SWArm).recent_counts_sum ≠ 0 := by
  have hrun : SlidingWindowUCBAgent.run 1 [.init 1, .update [] [1]] =
      ⟨1, 1, [⟨1, 0, [1], [1], 1, 1⟩]⟩ := by
    simp [SlidingWindowUCBAgent.run, SlidingWindowUCBAgent.step,
      SlidingWindowUCBAgent.update, SlidingWindowUCBAgent.init,
      SlidingWindowUCBAgent.new, SlidingWindowUCBAgent.armUpdate, dequePush, zipUpd]
  exact claim_C2_window_count_sum_stays_positive 1 [.init 1, .update [] [1]]
    (by norm_num) ⟨1, 0, [1], [1], 1, 1⟩
    (by rw [hrun]; exact List.mem_singleton.mpr rfl) (by norm_num)

theorem UCBArm.ext' {a b : UCBArm} (h1 : a.count = b.count)
    (h2 : a.value = b.value) : a = b := by
  cases a
  cases b
  cases h1
  cases h2
  rfl

theorem UCBAgent.armUpdate_neg {a : UCBArm} {r : ℚ} (h : r < 0) :
    UCBAgent.armUpdate a r = a := by
  rw [UCBAgent.armUpdate, if_neg (not_le.mpr h)]
  cases a
  simp

theorem length_exclusiveFeed (n j : ℕ) (r : ℚ) :
    (exclusiveFeed n j r).length = n := by
  simp [exclusiveFeed]

theorem exclusiveFeed_getD {n j i : ℕ} (hi : i < n) (r : ℚ) :
    (exclusiveFeed n j r).getD i 0 = if i = j then r else -1 := by
  have h1 : i < (exclusiveFeed n j r).length := by
    rw [length_exclusiveFeed]; exact hi
  rw [getD_pos _ _ h1]
  simp [exclusiveFeed]

/-- One update with the exclusive-feed reward vector touches only arm
`j`. -/
theorem update_exclusiveFeed (s : UCBAgent) (acts : List ℚ) {n j : ℕ}
    (hn : s.arms.length = n) (hj : j < n) (r : ℚ) :
    (s.update acts (exclusiveFeed n j r)).arms =
      s.arms.set j (UCBAgent.armUpdate (s.arms.getD j ⟨0, 0⟩) r) := by
  simp only [UCBAgent.update]
  apply List.ext_getElem
  · rw [length_zipUpd, List.length_set]
  · intro i h1 h2
    have hi : i < s.arms.length := by
      rw [length_zipUpd] at h1; exact h1
    have hifeed : i < (exclusiveFeed n j r).length := by
      rw [length_exclusiveFeed]; omega
    rw [← getD_pos (zipUpd UCBAgent.armUpdate s.arms (exclusiveFeed n j r)) ⟨0, 0⟩ h1]
    rw [zipUpd_getD _ _ _ _ _ hi, if_pos hifeed, exclusiveFeed_getD (by omega) r]
    by_cases hij : i = j
    · subst hij
      rw [if_pos rfl, List.getElem_set_self _]
    · rw [if_neg hij, List.getElem_set_ne (Ne.symm hij) _,
        UCBAgent.armUpdate_neg (by norm_num), getD_pos _ _ hi]

/-- Feeding a reward list exclusively to arm `j` folds `armUpdate` over
that arm and keeps the arm array length. -/
theorem feedSolo_getD : ∀ (rs : List ℚ) (s : UCBAgent) {n j : ℕ},
    s.arms.length = n → j < n →
    (UCBAgent.feedSolo n j rs s).arms.length = n ∧
    (UCBAgent.feedSolo n j rs s).arms.getD j ⟨0, 0⟩ =
      rs.foldl UCBAgent.armUpdate (s.arms.getD j ⟨0, 0⟩) := by
  intro rs
  induction rs with
  | nil =>
    intro s n j hn _
    exact ⟨hn, rfl⟩
  | cons r rs ih =>
    intro s n j hn hj
    have hupd := update_exclusiveFeed s [] hn hj r
    have hlen' : (s.update [] (exclusiveFeed n j r)).arms.length = n := by
      rw [hupd, List.length_set, hn]
    have hget : (s.update [] (exclusiveFeed n j r)).arms.getD j ⟨0, 0⟩ =
        UCBAgent.armUpdate (s.arms.getD j ⟨0, 0⟩) r := by
      rw [hupd, getD_pos _ _ (by rw [List.length_set, hn]; exact hj)]
      exact List.getElem_set_self _
    obtain ⟨ih1, ih2⟩ := ih (s.update [] (exclusiveFeed n j r)) hlen' hj
    constructor
    · rw [UCBAgent.feedSolo, List.foldl_cons]
      rw [UCBAgent.feedSolo] at ih1
      exact ih1
    · rw [UCBAgent.feedSolo, List.foldl_cons, List.foldl_cons]
      rw [UCBAgent.feedSolo] at ih2
      rw [ih2, hget]

/-- Folding the UCB1 per-arm update over a list of valid rewards adds the
list length to the count and keeps `value · count` equal to the
accumulated reward sum (the incremental-mean recurrence, in product
form). -/
theorem armFold_mean : ∀ (rs : List ℚ) (a : UCBArm), 0 ≤ a.count →
    (∀ r ∈ rs, 0 ≤ r) →
    (rs.foldl UCBAgent.armUpdate a).count = a.count + rs.length ∧
    (rs.foldl UCBAgent.armUpdate a).value * (a.count + rs.length) =
      a.value * a.count + rs.sum := by
  intro rs
  induction rs with
  | nil =>
    intro a _ _
    constructor
    · simp
    · simp
  | cons r rs ih =>
    intro a hc hv
    have hr : 0 ≤ r := hv r (List.mem_cons_self _ _)
    have ha' : UCBAgent.armUpdate a r =
        ⟨a.count + 1, a.value + 1 / (a.count + 1) * (r - a.value)⟩ := by
      rw [UCBAgent.armUpdate, if_pos hr]
    have hc' : (0 : ℚ) ≤ (UCBAgent.armUpdate a r).count := by
      rw [ha']
      dsimp only
      linarith
    have hne : (a.count + 1 : ℚ) ≠ 0 := by
      have h0 : (0 : ℚ) < a.count + 1 := by linarith
      exact h0.ne'
    obtain ⟨h1, h2⟩ := ih (UCBAgent.armUpdate a r) hc'
      (fun x hx => hv x (List.mem_cons_of_mem _ hx))
    rw [List.foldl_cons]
    constructor
    · rw [h1, ha']
      dsimp only
      push_cast [List.length_cons]
      ring
    · have hkey : (a.count + ((r :: rs).length : ℚ)) =
          ((UCBAgent.armUpdate a r).count + rs.length) := by
        rw [ha']
        dsimp only
        push_cast [List.length_cons]
        ring
      rw [hkey, h2, ha']
      dsimp only
      rw [List.sum_cons]
      field_simp
      ring

/-- C6: feeding valid rewards `r_1..r_k` exclusively to arm `j` of a
UCB1 agent (missing sentinel `-1` to all other arms) leaves arm `j` with
`count = k` and `value = (r_1 + … + r_k)/k` — the arithmetic mean, exact
over `ℚ` — and the resulting arm state is independent of the feed
order. -/
theorem claim_C6_ucb1_incremental_mean (n j : ℕ) (rs rs' : List ℚ)
    (hj : j < n) (hrs : ∀ r ∈ rs, 0 ≤ r) (hne : rs ≠ [])
    (hperm : rs'.Perm rs) :
    ((UCBAgent.feedSolo n j rs (UCBAgent.new.init n)).arms.getD j ⟨0, 0⟩).count =
      rs.length ∧
    ((UCBAgent.feedSolo n j rs (UCBAgent.new.init n)).arms.getD j ⟨0, 0⟩).value =
      rs.sum / rs.length ∧
    (UCBAgent.feedSolo n j rs' (UCBAgent.new.init n)).arms.getD j ⟨0, 0⟩ =
      (UCBAgent.feedSolo n j rs (UCBAgent.new.init n)).arms.getD j ⟨0, 0⟩ := by
  have hlen0 : (UCBAgent.new.init n).arms.length = n := by
    simp [UCBAgent.init, UCBAgent.new]
  have hget0 : (UCBAgent.new.init n).arms.getD j ⟨0, 0⟩ = ⟨0, 0⟩ := by
    rw [getD_pos _ _ (by rw [hlen0]; exact hj)]
    simp [UCBAgent.init]
  have main : ∀ (l : List ℚ), (∀ r ∈ l, 0 ≤ r) →
      ((UCBAgent.feedSolo n j l (UCBAgent.new.init n)).arms.getD j ⟨0, 0⟩).count =
        l.length ∧
      ((UCBAgent.feedSolo n j l (UCBAgent.new.init n)).arms.getD j ⟨0, 0⟩).value *
        l.length = l.sum := by
    intro l hl
    have hgd := (feedSolo_getD l (UCBAgent.new.init n) hlen0 hj).2
    rw [hgd, hget0]
    obtain ⟨h1, h2⟩ := armFold_mean l ⟨0, 0⟩ le_rfl hl
    dsimp only at h1 h2
    rw [zero_add] at h1
    rw [zero_add, zero_mul, zero_add] at h2
    exact ⟨h1, h2⟩
  have hlenq : ((rs.length : ℚ)) ≠ 0 := by
    have h0 : rs.length ≠ 0 := fun h => hne (List.eq_nil_of_length_eq_zero h)
    exact_mod_cast h0
  obtain ⟨hc1, hv1⟩ := main rs hrs
  have hrs2 : ∀ r ∈ rs', 0 ≤ r := fun r hr => hrs r (hperm.mem_iff.mp hr)
  obtain ⟨hc2, hv2⟩ := main rs' hrs2
  have hL : rs'.length = rs.length := hperm.length_eq
  have hS : rs'.sum = rs.sum := hperm.sum_eq
  have hv1' : ((UCBAgent.feedSolo n j rs (UCBAgent.new.init n)).arms.getD j
      ⟨0, 0⟩).value = rs.sum / rs.length := by
    rw [eq_div_iff hlenq]
    exact hv1
  refine ⟨hc1, hv1', ?_⟩
  apply UCBArm.ext'
  · rw [hc1, hc2, hL]
  · have hlenq' : ((rs'.length : ℚ)) ≠ 0 := by rw [hL]; exact hlenq
    have hv2' : ((UCBAgent.feedSolo n j rs' (UCBAgent.new.init n)).arms.getD j
        ⟨0, 0⟩).value = rs'.sum / rs'.length := by
      rw [eq_div_iff hlenq']
      exact hv2
    rw [hv1', hv2', hL, hS]

/-- C6 (witness): arm 0 of a two-arm agent fed `[1, 3, 0]` in two
different orders: count `3`, value `(1 + 3 + 0)/3 = 4/3`, same arm state
for the permuted feed. -/
theorem claim_C6_witness :
    ((UCBAgent.feedSolo 2 0 [1, 3, 0] (UCBAgent.new.init 2)).arms.getD 0
        ⟨0, 0⟩).count = ([1, 3, 0] : List ℚ).length ∧
    ((UCBAgent.feedSolo 2 0 [1, 3, 0] (UCBAgent.new.init 2)).arms.getD 0
        ⟨0, 0⟩).value = ([1, 3, 0] : List ℚ).sum / ([1, 3, 0] : List ℚ).length ∧
    (UCBAgent.feedSolo 2 0 [0, 1, 3] (UCBAgent.new.init 2)).arms.getD 0 ⟨0, 0⟩ =
      (UCBAgent.feedSolo 2 0 [1, 3, 0] (UCBAgent.new.init 2)).arms.getD 0 ⟨0, 0⟩ :=
  claim_C6_ucb1_incremental_mean 2 0 [1, 3, 0] [0, 1, 3] (by norm_num)
    (by norm_num) (by simp) (by decide)

end ROFARS
